import Mathlib

/-!
Verification development for the passkey-origin-validator repository.

The core under verification is `internal/counter/counter.go`: the label
extractor `getLabel`, the origin authorization engine
`ValidateWellKnownJSON`, and the label census `CountLabelsFromFile`.
File and network I/O are outside the core; the embedded operations take
the parsed form of the raw bytes (`Option Json`, where `none` stands for
bytes that are not syntactically valid JSON) in place of a byte buffer.
-/

/-- MaxLabels is the maximum number of unique labels allowed
(counter.go, `MaxLabels = 5`). -/
def MaxLabels : Nat := 5

/-- AuthenticatorStatus, the four-valued outcome of origin validation
(counter.go). -/
inductive AuthenticatorStatus where
  | StatusSuccess
  | StatusBadRelyingPartyIDJSONParseError
  | StatusBadRelyingPartyIDNoJSONMatch
  | StatusBadRelyingPartyIDNoJSONMatchHitLimits
deriving DecidableEq, Repr

/-- JSON values, the parsed form of the raw document bytes.  Numbers carry
an integer payload; the validator never inspects it beyond its kind. -/
inductive Json where
  | null
  | bool (b : Bool)
  | num (n : Int)
  | str (s : String)
  | arr (elems : List Json)
  | obj (fields : List (String × Json))

/- ---------------------------------------------------------------------
List-of-character utilities used by the URL and suffix models.  They are
written with structural recursion so that every concrete instance
evaluates inside the kernel.
--------------------------------------------------------------------- -/

/-- Whether `pre` is a prefix of `l`. -/
def listStartsWith : List Char → List Char → Bool
  | [], _ => true
  | _ :: _, [] => false
  | c :: cs, d :: ds => c == d && listStartsWith cs ds

/-- The part of `l` strictly before the first occurrence of `c`
(all of `l` when `c` does not occur) — Go `split(s, c, true)`, first
component. -/
def takeUntil (c : Char) (l : List Char) : List Char :=
  l.takeWhile (fun x => x != c)

/-- The part of `l` strictly after the last occurrence of `c`
(all of `l` when `c` does not occur). -/
def afterLast (c : Char) (l : List Char) : List Char :=
  (l.reverse.takeWhile (fun x => x != c)).reverse

/-- Whether character `c` occurs in `l`. -/
def hasChar (c : Char) (l : List Char) : Bool :=
  l.any (fun x => x == c)

/-- Go `strings.TrimSuffix`: `l` without `suffix` when `suffix` ends it,
otherwise `l` unchanged. -/
def trimSuffixList (l suffix : List Char) : List Char :=
  if listStartsWith suffix.reverse l.reverse then
    (l.reverse.drop suffix.length).reverse
  else l

/- ---------------------------------------------------------------------
Model of Go `net/url.Parse`, restricted to what the validator reads: the
`Scheme` and `Host` fields, and whether parsing fails.  `none` is a parse
error.  Faithful parts: the control-byte rejection, `getScheme`
(including the `missing protocol scheme` error), fragment and query
stripping, opaque URLs (no `//`), authority extraction, userinfo
stripping at the last `@`, and port validation after the last `:`.
Not modelled: %-escape decoding and host character-class validation
(none of the origins in this development use either).
--------------------------------------------------------------------- -/

/-- URL, the parsed scheme+host pair (Go `net/url.URL`, restricted to the
two fields the validator reads). -/
structure URL where
  Scheme : String
  Host : String
deriving DecidableEq, Repr

/-- Go `stringContainsCTLByte`. -/
def containsCTL (l : List Char) : Bool :=
  l.any (fun c => c.toNat < 32 || c.toNat == 127)

/-- Go `getScheme`: splits `scheme:rest`.  Returns `none` for the
`missing protocol scheme` error (a leading `:`), and an empty scheme
with the whole input as rest when no scheme prefix is present. -/
def getSchemeAux (orig : List Char) : List Char → List Char → Option (List Char × List Char)
  | [], _ => some ([], orig)
  | c :: cs, acc =>
    if c.isAlpha then getSchemeAux orig cs (acc ++ [c])
    else if c.isDigit || c == '+' || c == '-' || c == '.' then
      if acc.isEmpty then some ([], orig) else getSchemeAux orig cs (acc ++ [c])
    else if c == ':' then
      if acc.isEmpty then none else some (acc, cs)
    else some ([], orig)

/-- Entry point of the scheme splitter. -/
def getScheme (l : List Char) : Option (List Char × List Char) :=
  getSchemeAux l l []

/-- Go `validOptionalPort`: empty, or `:` followed by digits only. -/
def validOptionalPort : List Char → Bool
  | [] => true
  | c :: ds => c == ':' && ds.all (fun x => x.isDigit)

/-- Go `parseHost`: validates a bracketed address or an optional port
after the last `:`; the returned host keeps the port. -/
def parseHost (host : List Char) : Option (List Char) :=
  match host with
  | '[' :: _ =>
    if hasChar ']' host then
      if validOptionalPort (afterLast ']' host) then some host else none
    else none
  | _ =>
    if hasChar ':' host then
      if (afterLast ':' host).all (fun x => x.isDigit) then some host else none
    else some host

/-- Go `parseAuthority`: the host is the part after the last `@`
(userinfo content validation is not modelled). -/
def parseAuthority (authority : List Char) : Option (List Char) :=
  parseHost (if hasChar '@' authority then afterLast '@' authority else authority)

/-- Model of Go `url.Parse`, restricted to scheme and host. -/
def urlParse (rawURL : String) : Option URL :=
  let u := takeUntil '#' rawURL.data
  if containsCTL u then none
  else
    match getScheme u with
    | none => none
    | some (schemeChars, rest0) =>
      let scheme := schemeChars.map Char.toLower
      let rest := takeUntil '?' rest0
      if listStartsWith ['/'] rest then
        if listStartsWith ['/', '/'] rest &&
            (!scheme.isEmpty || !listStartsWith ['/', '/', '/'] rest) then
          match parseAuthority (takeUntil '/' (rest.drop 2)) with
          | none => none
          | some host => some ⟨String.mk scheme, String.mk host⟩
        else some ⟨String.mk scheme, ""⟩
      else
        if !scheme.isEmpty then some ⟨String.mk scheme, ""⟩
        else if hasChar ':' (takeUntil '/' rest) then none
        else some ⟨"", ""⟩

/- ---------------------------------------------------------------------
Public-suffix lookup and the label extractor.
--------------------------------------------------------------------- -/

/-- Modelled from the spec: the external longest-public-suffix lookup
capability (`longestPublicSuffix(domain) -> suffix`, spec section 6),
which the repository obtains from `golang.org/x/net/publicsuffix`.
The rule table is instantiated with the public-suffix rules for the
top-level domains appearing in this development and the repository's
examples; a domain matching no rule falls back to its last dot-separated
segment (the public-suffix list's implicit `*` rule). -/
def pslRules : List (List Char) :=
  ["com", "org", "net", "io", "co", "dev", "de", "in",
   "uk", "co.uk", "fr", "jp", "ca", "au"].map String.data

/-- Whether public-suffix rule `r` matches domain `l`: `l` is `r` itself
or ends with `.` followed by `r`. -/
def ruleMatches (r l : List Char) : Bool :=
  l == r || listStartsWith (r.reverse ++ ['.']) l.reverse

/-- The longest matching rule, or the last label as fallback. -/
def publicSuffix (l : List Char) : List Char :=
  ((pslRules.filter (fun r => ruleMatches r l)).foldl
      (fun best r =>
        match best with
        | none => some r
        | some b => if b.length < r.length then some r else some b)
      none).getD (afterLast '.' l)

/-- getLabel (counter.go): a domain with no dot is skipped; otherwise the
label is the domain with its public suffix trimmed from the end
(`strings.TrimSuffix(domain, tld)`).  `none` models the skip error. -/
def getLabel (domain : String) : Option String :=
  if hasChar '.' domain.data then
    some (String.mk (trimSuffixList domain.data (publicSuffix domain.data)))
  else none

/- ---------------------------------------------------------------------
JSON decoding into the `WebAuthnResponse` struct: `json.Unmarshal(data,
&webAuthnResp)` where the struct has one field `Origins []string`.
`Except.error ()` models a non-nil unmarshal error; `Except.ok none`
models a nil `Origins` slice; `Except.ok (some l)` a non-nil slice.
Per Go's encoding/json documentation, a JSON `null` decodes into a slice
as nil and into a string element with no effect and no error.
--------------------------------------------------------------------- -/

/-- Go's encoding/json matches an incoming object key to a struct field
preferring an exact match but also accepting a case-insensitive match;
with the single field tag `origins`, a key decodes into `Origins`
exactly when it equals "origins" up to case folding (Go uses
`strings.EqualFold`; the folding is modelled on ASCII letters, the only
letters a field name here can fold on). -/
def keyIsOrigins (k : String) : Bool :=
  k.data.map Char.toLower == "origins".data

/-- Decode the elements of the `origins` array: strings decode to
themselves, `null` leaves the element at its zero value `""`, anything
else is an unmarshal type error. -/
def decodeStringElems : List Json → Except Unit (List String)
  | [] => Except.ok []
  | Json.str s :: rest => (decodeStringElems rest).map (fun l => s :: l)
  | Json.null :: rest => (decodeStringElems rest).map (fun l => "" :: l)
  | _ :: _ => Except.error ()

/-- Decode the value sitting under the `origins` key. -/
def decodeOriginsValue : Json → Except Unit (Option (List String))
  | Json.null => Except.ok none
  | Json.arr elems => (decodeStringElems elems).map some
  | _ => Except.error ()

/-- Process the fields of a JSON object in order: keys not matching
`origins` (up to case) are skipped, each matching occurrence overwrites
the field (a type error in any occurrence makes the whole unmarshal
fail). -/
def unmarshalFields : List (String × Json) → Option (List String) → Except Unit (Option (List String))
  | [], acc => Except.ok acc
  | (k, v) :: rest, acc =>
    if keyIsOrigins k then
      match decodeOriginsValue v with
      | Except.error _ => Except.error ()
      | Except.ok o => unmarshalFields rest o
    else unmarshalFields rest acc

/-- `json.Unmarshal` into `WebAuthnResponse`: a top-level `null` leaves
the struct zero-valued, an object is decoded field by field, any other
JSON kind is an unmarshal type error. -/
def unmarshalWebAuthn : Json → Except Unit (Option (List String))
  | Json.null => Except.ok none
  | Json.obj fields => unmarshalFields fields none
  | _ => Except.error ()

/- ---------------------------------------------------------------------
The per-entry pipeline and the validation scan (counter.go,
`ValidateWellKnownJSON`).
--------------------------------------------------------------------- -/

/-- The shared per-entry pipeline of both loops: parse the origin string,
skip it when parsing fails or the host is empty, extract the label, skip
when extraction signals no dot.  Returns the parsed URL and its label. -/
def entryInfo (o : String) : Option (URL × String) :=
  match urlParse o with
  | none => none
  | some u =>
    if u.Host = "" then none
    else
      match getLabel u.Host with
      | none => none
      | some lab => some (u, lab)

/-- The effect of one loop iteration on the state
`(uniqueLabels, hitLimits)`: a skipped entry changes nothing; a seen
label changes nothing; a new label over the budget sets `hitLimits`;
a new label under the budget is admitted. -/
def scanStep (st : List String × Bool) (o : String) : List String × Bool :=
  match entryInfo o with
  | none => st
  | some (_, lab) =>
    if lab ∈ st.1 then st
    else if MaxLabels ≤ st.1.length then (st.1, true)
    else (st.1 ++ [lab], st.2)

/-- Whether the iteration for `o` reaches `continue` before the match
check: the entry was skipped by the pipeline, or its label is new while
the budget is exhausted. -/
def entrySkipped (st : List String × Bool) (o : String) : Bool :=
  match entryInfo o with
  | none => true
  | some (_, lab) =>
    if lab ∈ st.1 then false
    else if MaxLabels ≤ st.1.length then true
    else false

/-- Whether entry `o` equals the caller's (scheme, host) pair. -/
def entryMatches (caller : URL) (o : String) : Bool :=
  match entryInfo o with
  | none => false
  | some (u, _) =>
    if u.Scheme = caller.Scheme ∧ u.Host = caller.Host then true else false

/-- The scan over the origins list: return SUCCESS at the first entry
that reaches the match check and matches; otherwise update the state and
continue; at the end report whether the limit was hit. -/
def scanOrigins (caller : URL) : List String → List String × Bool → AuthenticatorStatus
  | [], st =>
    if st.2 then AuthenticatorStatus.StatusBadRelyingPartyIDNoJSONMatchHitLimits
    else AuthenticatorStatus.StatusBadRelyingPartyIDNoJSONMatch
  | o :: rest, st =>
    if !entrySkipped st o && entryMatches caller o then
      AuthenticatorStatus.StatusSuccess
    else scanOrigins caller rest (scanStep st o)

/-- ValidateWellKnownJSON (counter.go): unmarshal the document (a syntax
error or a nil origins slice is a parse error), parse the caller origin
(failure is a no-match), then scan the origins list. -/
def ValidateWellKnownJSON (callerOrigin : String) (jsonData : Option Json) : AuthenticatorStatus :=
  match jsonData with
  | none => AuthenticatorStatus.StatusBadRelyingPartyIDJSONParseError
  | some j =>
    match unmarshalWebAuthn j with
    | Except.error _ => AuthenticatorStatus.StatusBadRelyingPartyIDJSONParseError
    | Except.ok none => AuthenticatorStatus.StatusBadRelyingPartyIDJSONParseError
    | Except.ok (some origins) =>
      match urlParse callerOrigin with
      | none => AuthenticatorStatus.StatusBadRelyingPartyIDNoJSONMatch
      | some callerURL => scanOrigins callerURL origins ([], false)

/- ---------------------------------------------------------------------
The label census (counter.go, `CountLabelsFromFile` after the file bytes
are read).
--------------------------------------------------------------------- -/

/-- LabelCount (counter.go), restricted to the fields with decision
content.  `URL` and `RawJSON` are I/O metadata; the `UniqueLabels` map
holds exactly the members of `LabelsFound`, which the model keeps as the
single list. -/
structure LabelCount where
  Count : Nat
  ExceedsLimit : Bool
  LabelsFound : List String
  ErrorMessage : String
deriving DecidableEq, Repr

/-- The census collection loop: record every distinct extracted label in
first-seen order, with no admission gate. -/
def collectLabels : List String → List String → List String
  | [], found => found
  | o :: rest, found =>
    match entryInfo o with
    | none => collectLabels rest found
    | some (_, lab) =>
      if lab ∈ found then collectLabels rest found
      else collectLabels rest (found ++ [lab])

/-- CountLabelsFromFile (counter.go), after the file's bytes are read:
an unmarshal failure only populates the error message (the Go message
embeds the decoder's error text, elided here); otherwise the loop runs
over the origins slice (none at all when the slice is nil) and the count
is compared against MaxLabels. -/
def CountLabelsFromFile (jsonData : Option Json) : LabelCount :=
  match jsonData with
  | none => { Count := 0, ExceedsLimit := false, LabelsFound := [], ErrorMessage := "failed to parse JSON" }
  | some j =>
    match unmarshalWebAuthn j with
    | Except.error _ =>
      { Count := 0, ExceedsLimit := false, LabelsFound := [], ErrorMessage := "failed to parse JSON" }
    | Except.ok og =>
      let labels := collectLabels (og.getD []) []
      { Count := labels.length
        ExceedsLimit := decide (MaxLabels < labels.length)
        LabelsFound := labels
        ErrorMessage := "" }


/- ---------------------------------------------------------------------
Specification-side definitions, used to state the claims.
--------------------------------------------------------------------- -/

/-- The stream of labels produced by the non-skipped entries of an
origins list, in list order (with repetitions). -/
def labelStream (os : List String) : List String :=
  os.filterMap (fun o => Option.map Prod.snd (entryInfo o))

/-- Deduplication keeping the first occurrence of each element, in
order — the spec's "first-seen order" (spec section 4.3). -/
def firstSeenDedup : List String → List String
  | [] => []
  | a :: l => a :: (firstSeenDedup l).filter (fun x => x != a)

/-- The number of distinct labels spanned by an origins list's
non-skipped entries. -/
def distinctLabelCount (os : List String) : Nat :=
  (firstSeenDedup (labelStream os)).length

/-- Whether a JSON value is a string or `null` (the element kinds that
Go decodes into a `[]string` without error). -/
def isStringOrNull : Json → Bool
  | Json.str _ => true
  | Json.null => true
  | _ => false

/-- Whether a JSON value is an array all of whose elements decode into
string slots without error. -/
def isStringOrNullArray : Json → Bool
  | Json.arr elems => elems.all isStringOrNull
  | _ => false

/-- Whether the document has at most one key matching `origins` up to
case (the well-formed case the parse-error characterization is stated
for). -/
def noDupOriginsKey : Option Json → Bool
  | some (Json.obj fields) =>
    decide ((fields.filter (fun kv => keyIsOrigins kv.1)).length ≤ 1)
  | _ => true

/-- The spec's parse-error condition (spec section 4.2 step 1), with the
element rule amended to Go's behavior: malformed bytes, a non-object
value, no key matching `origins` up to case, or a matching key whose
value is not an array of strings-or-nulls. -/
def specParseErrorAmended : Option Json → Bool
  | none => true
  | some (Json.obj fields) =>
    match fields.find? (fun kv => keyIsOrigins kv.1) with
    | none => true
    | some kv => !isStringOrNullArray kv.2
  | some _ => true

/-- The canonical origins document for a list of origin strings:
`{"origins": [...]}` with every element a JSON string. -/
def originsDoc (l : List String) : Json :=
  Json.obj [("origins", Json.arr (l.map Json.str))]

/-- Six origins with six pairwise-distinct labels; the caller
`https://foo.com` equals the sixth (last) entry. -/
def originsSixMatchLast : List String :=
  ["https://a.com", "https://b.com", "https://c.com",
   "https://d.com", "https://e.com", "https://foo.com"]

/-- Six origins with six pairwise-distinct labels; the caller
`https://foo.com` equals the fifth entry and the sixth does not match. -/
def originsSixMatchFifth : List String :=
  ["https://a.com", "https://b.com", "https://c.com",
   "https://d.com", "https://foo.com", "https://e.com"]

/-- Six origins with six pairwise-distinct labels for the census. -/
def originsSixCensus : List String :=
  ["https://one.example.com", "https://two.example.org",
   "https://three.example.net", "https://four.example.io",
   "https://five.example.co", "https://six.example.dev"]

/- ---------------------------------------------------------------------
Theorems.
--------------------------------------------------------------------- -/

/-- C1 (counterexample): with five distinct labels already admitted, an
entry that equals the caller's (scheme, host) but carries a new sixth
label does NOT cause SUCCESS — the scan ends in the hit-limits outcome,
so the entry was never compared against the caller, contrary to the
claim's "is still compared … returns SUCCESS immediately". -/
theorem scan_overbudget_matching_entry_not_success :
    entryMatches ⟨"https", "foo.com"⟩ "https://foo.com" = true
    ∧ scanOrigins ⟨"https", "foo.com"⟩ ["https://foo.com"]
        (["a.", "b.", "c.", "d.", "e."], false)
        = AuthenticatorStatus.StatusBadRelyingPartyIDNoJSONMatchHitLimits :=
  ⟨rfl, rfl⟩

/-- C1 (amended): when an entry's label is new while the seen-label set
already holds MaxLabels labels, the entry is not admitted, the
hit-limits flag is set, and the iteration `continue`s — the entry is
never compared against the caller, so the scan result is that of the
remaining entries with the flag set, whatever the entry's (scheme,
host). -/
theorem scan_overbudget_new_label_skips_match (caller : URL) (o : String)
    (rest : List String) (seen : List String) (hit : Bool) (u : URL) (lab : String)
    (h1 : entryInfo o = some (u, lab)) (h2 : lab ∉ seen) (h3 : MaxLabels ≤ seen.length) :
    scanOrigins caller (o :: rest) (seen, hit) = scanOrigins caller rest (seen, true) := by
  have hs : entrySkipped (seen, hit) o = true := by
    simp [entrySkipped, h1, h2, h3]
  have hstep : scanStep (seen, hit) o = (seen, true) := by
    simp [scanStep, h1, h2, h3]
  simp [scanOrigins, hs, hstep]

/-- C1 (witness): the amended step equation at a concrete over-budget
entry. -/
theorem scan_overbudget_new_label_skips_match_witness :
    scanOrigins ⟨"https", "x.com"⟩ ["https://zzz.com"]
        (["a.", "b.", "c.", "d.", "e."], false)
      = scanOrigins ⟨"https", "x.com"⟩ [] (["a.", "b.", "c.", "d.", "e."], true) :=
  scan_overbudget_new_label_skips_match ⟨"https", "x.com"⟩ "https://zzz.com" []
    ["a.", "b.", "c.", "d.", "e."] false ⟨"https", "zzz.com"⟩ "zzz."
    rfl (by decide) (by decide)

/-- C2 (counterexample): `getLabel "example.com"` is `"example."` — the
trailing dot left after trimming the public suffix is NOT removed, so
the claimed value `"example"` is wrong. -/
theorem getLabel_keeps_trailing_dot :
    getLabel "example.com" = some "example."
    ∧ getLabel "example.com" ≠ some "example" :=
  ⟨rfl, by decide⟩

/-- C2 (amended): getLabel on a dotted host returns the host with its
longest public suffix removed and the separating dot RETAINED at the
end: "example.com" ↦ "example.", "test.example.org" ↦ "test.example.",
"one.thing.com" ↦ "one.thing.", "foo.co.uk" ↦ "foo.". -/
theorem getLabel_worked_examples :
    getLabel "example.com" = some "example."
    ∧ getLabel "test.example.org" = some "test.example."
    ∧ getLabel "one.thing.com" = some "one.thing."
    ∧ getLabel "foo.co.uk" = some "foo." :=
  ⟨rfl, rfl, rfl, rfl⟩

/-- C3 (counterexample): `{"origins": [null]}` — an origins array
containing a non-string element — is NOT a parse error: Go decodes the
null into the zero-valued string with no error, the empty-host entry is
skipped, and validate returns the no-match outcome. -/
theorem validate_null_element_not_parse_error :
    ValidateWellKnownJSON "https://foo.com"
        (some (Json.obj [("origins", Json.arr [Json.null])]))
      = AuthenticatorStatus.StatusBadRelyingPartyIDNoJSONMatch :=
  rfl

/-- C4 (counterexample): the caller `https://com` appears verbatim in the
(zero-distinct-label) origins list, yet validate returns no-match: the
entry's host has no dot, so the entry is skipped before the match
check. -/
theorem validate_verbatim_dotless_entry_no_match :
    ValidateWellKnownJSON "https://com" (some (originsDoc ["https://com"]))
        = AuthenticatorStatus.StatusBadRelyingPartyIDNoJSONMatch
    ∧ "https://com" ∈ (["https://com"] : List String)
    ∧ distinctLabelCount ["https://com"] = 0 :=
  ⟨rfl, by decide, rfl⟩

/-- C5: six entries with six pairwise-distinct labels where only the
sixth (last) entry equals the caller's (scheme, host): validate returns
BAD_RELYING_PARTY_ID_NO_JSON_MATCH_HIT_LIMITS. -/
theorem validate_six_distinct_match_last_hits_limits :
    distinctLabelCount originsSixMatchLast = 6
    ∧ ValidateWellKnownJSON "https://foo.com" (some (originsDoc originsSixMatchLast))
        = AuthenticatorStatus.StatusBadRelyingPartyIDNoJSONMatchHitLimits :=
  ⟨rfl, rfl⟩

/-- C6: six entries with six pairwise-distinct labels where the fifth
entry equals the caller's (scheme, host): validate returns SUCCESS,
never reaching the over-budget sixth entry. -/
theorem validate_six_distinct_match_fifth_success :
    distinctLabelCount originsSixMatchFifth = 6
    ∧ ValidateWellKnownJSON "https://foo.com" (some (originsDoc originsSixMatchFifth))
        = AuthenticatorStatus.StatusSuccess :=
  ⟨rfl, rfl⟩

/-- C9: when the document unmarshals to a non-nil origins list but the
caller origin fails to parse as a URL, validate returns
BAD_RELYING_PARTY_ID_NO_JSON_MATCH (never the parse-error status). -/
theorem validate_caller_parse_failure_no_match (caller : String) (j : Json)
    (og : List String) (h1 : unmarshalWebAuthn j = Except.ok (some og))
    (h2 : urlParse caller = none) :
    ValidateWellKnownJSON caller (some j)
      = AuthenticatorStatus.StatusBadRelyingPartyIDNoJSONMatch := by
  simp [ValidateWellKnownJSON, h1, h2]

/-- C9 (witness): a caller with a leading `:` (Go's "missing protocol
scheme" error) against a well-formed document. -/
theorem validate_caller_parse_failure_no_match_witness :
    unmarshalWebAuthn (originsDoc ["https://a.com"]) = Except.ok (some ["https://a.com"])
    ∧ urlParse "://bad" = none
    ∧ ValidateWellKnownJSON "://bad" (some (originsDoc ["https://a.com"]))
        = AuthenticatorStatus.StatusBadRelyingPartyIDNoJSONMatch :=
  ⟨rfl, rfl, validate_caller_parse_failure_no_match "://bad" _ ["https://a.com"] rfl rfl⟩

/-- C10: on `{}` (no origins key) and on `{"origins": null}` the census
reports no error — empty error message, zero count, no excess, empty
label list — while validate on the same documents returns the
parse-error status through its explicit nil-origins check. -/
theorem census_nil_origins_vs_validate :
    CountLabelsFromFile (some (Json.obj [])) = ⟨0, false, [], ""⟩
    ∧ CountLabelsFromFile (some (Json.obj [("origins", Json.null)])) = ⟨0, false, [], ""⟩
    ∧ ValidateWellKnownJSON "https://foo.com" (some (Json.obj []))
        = AuthenticatorStatus.StatusBadRelyingPartyIDJSONParseError
    ∧ ValidateWellKnownJSON "https://foo.com" (some (Json.obj [("origins", Json.null)]))
        = AuthenticatorStatus.StatusBadRelyingPartyIDJSONParseError :=
  ⟨rfl, rfl, rfl, rfl⟩

/-- One scan step can only keep the seen-set or grow it by one while it
is strictly under the budget. -/
theorem scanStep_fst_length (st : List String × Bool) (o : String)
    (h : st.1.length ≤ MaxLabels) : ((scanStep st o).1).length ≤ MaxLabels := by
  rcases hoi : entryInfo o with _ | ⟨u, lab⟩
  · simpa [scanStep, hoi] using h
  · by_cases hm : lab ∈ st.1
    · simpa [scanStep, hoi, hm] using h
    · by_cases hl : MaxLabels ≤ st.1.length
      · simpa [scanStep, hoi, hm, hl] using h
      · have h1 : st.1.length + 1 ≤ MaxLabels := Nat.not_le.mp hl
        simpa [scanStep, hoi, hm, hl] using h1

/-- The seen-set stays within the budget along any scan-step fold. -/
theorem foldl_scanStep_length : ∀ (origins : List String) (st : List String × Bool),
    st.1.length ≤ MaxLabels → ((origins.foldl scanStep st).1).length ≤ MaxLabels
  | [], _, h => h
  | o :: rest, st, h => by
    rw [List.foldl_cons]
    exact foldl_scanStep_length rest (scanStep st o) (scanStep_fst_length st o h)

/-- C8: the seen-label set is bounded by MaxLabels throughout every scan:
(i) each iteration of the scan either returns SUCCESS or continues on
the `scanStep`-updated state, so the `scanStep` fold IS the scan's state
evolution; (ii) after any number of processed entries the seen-set holds
at most MaxLabels labels; (iii) once the seen-set holds MaxLabels
labels, no step ever changes it. -/
theorem scan_seen_labels_bounded :
    (∀ (caller : URL) (o : String) (rest : List String) (st : List String × Bool),
        scanOrigins caller (o :: rest) st = AuthenticatorStatus.StatusSuccess
        ∨ scanOrigins caller (o :: rest) st = scanOrigins caller rest (scanStep st o))
    ∧ (∀ origins : List String,
        ((origins.foldl scanStep ([], false)).1).length ≤ MaxLabels)
    ∧ (∀ (st : List String × Bool) (o : String),
        MaxLabels ≤ st.1.length → (scanStep st o).1 = st.1) := by
  refine ⟨?_, ?_, ?_⟩
  · intro caller o rest st
    by_cases hc : (!entrySkipped st o && entryMatches caller o) = true
    · left; simp [scanOrigins, hc]
    · right; simp [scanOrigins, hc]
  · intro origins
    exact foldl_scanStep_length origins ([], false) (by simp [MaxLabels])
  · intro st o h
    rcases hoi : entryInfo o with _ | ⟨u, lab⟩
    · simp [scanStep, hoi]
    · by_cases hm : lab ∈ st.1
      · simp [scanStep, hoi, hm]
      · simp [scanStep, hoi, hm, h]

/-- C8 (witness): a concrete full seen-set is left unchanged by a step
with a fresh label. -/
theorem scan_seen_labels_bounded_witness :
    (scanStep (["p.", "q.", "r.", "s.", "t."], false) "https://new.example.com").1
      = ["p.", "q.", "r.", "s.", "t."] :=
  scan_seen_labels_bounded.2.2 (["p.", "q.", "r.", "s.", "t."], false)
    "https://new.example.com" (by decide)

/-- The scan never produces the parse-error status. -/
theorem scanOrigins_ne_parse_error :
    ∀ (origins : List String) (caller : URL) (st : List String × Bool),
      scanOrigins caller origins st
        ≠ AuthenticatorStatus.StatusBadRelyingPartyIDJSONParseError
  | [], caller, st => by
    by_cases h : st.2 <;> simp [scanOrigins, h]
  | o :: rest, caller, st => by
    by_cases hc : (!entrySkipped st o && entryMatches caller o) = true
    · simp [scanOrigins, hc]
    · simpa [scanOrigins, hc] using
        scanOrigins_ne_parse_error rest caller (scanStep st o)

/-- Fields with no key matching `origins` up to case leave the
accumulator untouched. -/
theorem unmarshalFields_no_key :
    ∀ (fields : List (String × Json)) (acc : Option (List String)),
      (∀ kv ∈ fields, keyIsOrigins kv.1 = false) →
      unmarshalFields fields acc = Except.ok acc
  | [], _, _ => rfl
  | (k, v) :: rest, acc, h => by
    have hk := h (k, v) (List.mem_cons_self _ _)
    simp only [unmarshalFields, hk, Bool.false_eq_true, if_false]
    exact unmarshalFields_no_key rest acc (fun kv hm => h kv (List.mem_cons_of_mem _ hm))

/-- With a unique key matching `origins` up to case, the unmarshal
outcome is exactly the decode of that key's value. -/
theorem unmarshalFields_key :
    ∀ (fields : List (String × Json)) (acc : Option (List String)) (kv : String × Json),
      fields.find? (fun p => keyIsOrigins p.1) = some kv →
      (fields.filter (fun p => keyIsOrigins p.1)).length ≤ 1 →
      unmarshalFields fields acc = decodeOriginsValue kv.2
  | [], _, kv, hfind, _ => by simp [List.find?] at hfind
  | (k, v) :: rest, acc, kv, hfind, hnd => by
    by_cases hk : keyIsOrigins k = true
    · simp only [List.find?_cons, hk] at hfind
      have hkv : kv = (k, v) := (Option.some.inj hfind).symm
      subst hkv
      have hrest : ∀ p ∈ rest, keyIsOrigins p.1 = false := by
        simp only [List.filter_cons, hk, if_true, List.length_cons] at hnd
        have hnil : rest.filter (fun p => keyIsOrigins p.1) = [] :=
          List.length_eq_zero.mp (by omega)
        intro p hp
        by_contra hcon
        have hpf : p ∈ rest.filter (fun p => keyIsOrigins p.1) :=
          List.mem_filter.mpr ⟨hp, by simpa using hcon⟩
        simp [hnil] at hpf
      simp only [unmarshalFields, hk, if_true]
      rcases hd : decodeOriginsValue v with e | o
      · rfl
      · exact unmarshalFields_no_key rest o hrest
    · simp only [List.find?_cons, hk] at hfind
      simp only [List.filter_cons, hk, Bool.false_eq_true, if_false] at hnd
      simp only [unmarshalFields, hk, Bool.false_eq_true, if_false]
      exact unmarshalFields_key rest acc kv hfind hnd

/-- The element decode succeeds exactly when every element is a string
or null. -/
theorem decodeStringElems_ok_iff :
    ∀ elems : List Json,
      (∃ l, decodeStringElems elems = Except.ok l) ↔ elems.all isStringOrNull = true
  | [] => by simp [decodeStringElems]
  | Json.null :: rest => by
    rw [List.all_cons]
    constructor
    · rintro ⟨l, hl⟩
      rcases hd : decodeStringElems rest with e | l2
      · simp [decodeStringElems, hd, Except.map] at hl
      · exact by simpa [isStringOrNull] using (decodeStringElems_ok_iff rest).mp ⟨l2, hd⟩
    · intro h
      obtain ⟨l, hl⟩ := (decodeStringElems_ok_iff rest).mpr (by simpa [isStringOrNull] using h)
      exact ⟨"" :: l, by simp [decodeStringElems, hl, Except.map]⟩
  | Json.str s :: rest => by
    rw [List.all_cons]
    constructor
    · rintro ⟨l, hl⟩
      rcases hd : decodeStringElems rest with e | l2
      · simp [decodeStringElems, hd, Except.map] at hl
      · exact by simpa [isStringOrNull] using (decodeStringElems_ok_iff rest).mp ⟨l2, hd⟩
    · intro h
      obtain ⟨l, hl⟩ := (decodeStringElems_ok_iff rest).mpr (by simpa [isStringOrNull] using h)
      exact ⟨s :: l, by simp [decodeStringElems, hl, Except.map]⟩
  | Json.bool b :: rest => by simp [decodeStringElems, isStringOrNull]
  | Json.num n :: rest => by simp [decodeStringElems, isStringOrNull]
  | Json.arr es :: rest => by simp [decodeStringElems, isStringOrNull]
  | Json.obj fs :: rest => by simp [decodeStringElems, isStringOrNull]

/-- C3 (amended): for a document with at most one key matching `origins`
up to case, validate returns BAD_RELYING_PARTY_ID_JSON_PARSE_ERROR
exactly when the input is malformed JSON, a non-object JSON value
(including a top-level empty array), an object with no key matching
`origins` up to case (encoding/json also accepts a case-insensitive
field-name match), or an object whose matching key's value is not an
array all of whose elements are strings or nulls (a `null` element
decodes as the empty string without error, so — unlike the original
claim — it does not make the document a parse error); an `origins` key
with an empty array is not a parse error. -/
theorem validate_parse_error_iff (caller : String) (jd : Option Json)
    (h : noDupOriginsKey jd = true) :
    (ValidateWellKnownJSON caller jd
        = AuthenticatorStatus.StatusBadRelyingPartyIDJSONParseError)
    ↔ specParseErrorAmended jd = true := by
  match jd with
  | none => simp [ValidateWellKnownJSON, specParseErrorAmended]
  | some Json.null =>
    simp [ValidateWellKnownJSON, unmarshalWebAuthn, specParseErrorAmended]
  | some (Json.bool b) =>
    simp [ValidateWellKnownJSON, unmarshalWebAuthn, specParseErrorAmended]
  | some (Json.num n) =>
    simp [ValidateWellKnownJSON, unmarshalWebAuthn, specParseErrorAmended]
  | some (Json.str s) =>
    simp [ValidateWellKnownJSON, unmarshalWebAuthn, specParseErrorAmended]
  | some (Json.arr es) =>
    simp [ValidateWellKnownJSON, unmarshalWebAuthn, specParseErrorAmended]
  | some (Json.obj fields) =>
    rcases hfind : fields.find? (fun p => keyIsOrigins p.1) with _ | ⟨k, v⟩
    · have hnil : unmarshalFields fields none = Except.ok none :=
        unmarshalFields_no_key fields none (by
          intro kv hm
          have := List.find?_eq_none.mp hfind kv hm
          simpa using this)
      simp [ValidateWellKnownJSON, unmarshalWebAuthn, hnil,
        specParseErrorAmended, hfind]
    · have hnd : (fields.filter (fun p => keyIsOrigins p.1)).length ≤ 1 := by
        simpa [noDupOriginsKey] using h
      have hu : unmarshalFields fields none = decodeOriginsValue v :=
        unmarshalFields_key fields none (k, v) hfind hnd
      match v with
      | Json.null =>
        simp [ValidateWellKnownJSON, unmarshalWebAuthn, hu, decodeOriginsValue,
          specParseErrorAmended, hfind, isStringOrNullArray]
      | Json.bool b =>
        simp [ValidateWellKnownJSON, unmarshalWebAuthn, hu, decodeOriginsValue,
          specParseErrorAmended, hfind, isStringOrNullArray]
      | Json.num n =>
        simp [ValidateWellKnownJSON, unmarshalWebAuthn, hu, decodeOriginsValue,
          specParseErrorAmended, hfind, isStringOrNullArray]
      | Json.str s =>
        simp [ValidateWellKnownJSON, unmarshalWebAuthn, hu, decodeOriginsValue,
          specParseErrorAmended, hfind, isStringOrNullArray]
      | Json.obj fs =>
        simp [ValidateWellKnownJSON, unmarshalWebAuthn, hu, decodeOriginsValue,
          specParseErrorAmended, hfind, isStringOrNullArray]
      | Json.arr es =>
        by_cases ha : es.all isStringOrNull = true
        · obtain ⟨l, hl⟩ := (decodeStringElems_ok_iff es).mpr ha
          have hok : unmarshalFields fields none = Except.ok (some l) := by
            rw [hu]; simp [decodeOriginsValue, hl, Except.map]
          rcases hc : urlParse caller with _ | cu
          · simp [ValidateWellKnownJSON, unmarshalWebAuthn, hok, hc,
              specParseErrorAmended, hfind, isStringOrNullArray, ha]
          · simp [ValidateWellKnownJSON, unmarshalWebAuthn, hok, hc,
              specParseErrorAmended, hfind, isStringOrNullArray, ha,
              scanOrigins_ne_parse_error l cu ([], false)]
        · have herr : decodeStringElems es = Except.error () := by
            rcases hd : decodeStringElems es with e | l2
            · rfl
            · exact absurd ((decodeStringElems_ok_iff es).mp ⟨l2, hd⟩) ha
          have hbad : unmarshalFields fields none = Except.error () := by
            rw [hu]; simp [decodeOriginsValue, herr, Except.map]
          simp [ValidateWellKnownJSON, unmarshalWebAuthn, hbad,
            specParseErrorAmended, hfind, isStringOrNullArray, ha]

/-- C3 (witness): the amended characterization at a concrete document
whose key `Origins` matches the field only case-insensitively (still
decoded by Go, hence not a parse error). -/
theorem validate_parse_error_iff_witness :
    (ValidateWellKnownJSON "https://w.example"
          (some (Json.obj [("Origins", Json.arr [])]))
        = AuthenticatorStatus.StatusBadRelyingPartyIDJSONParseError)
    ↔ specParseErrorAmended (some (Json.obj [("Origins", Json.arr [])])) = true :=
  validate_parse_error_iff "https://w.example"
    (some (Json.obj [("Origins", Json.arr [])])) rfl

/-- Membership in the first-seen deduplication is membership in the
original list. -/
theorem mem_firstSeenDedup {x : String} :
    ∀ {l : List String}, x ∈ firstSeenDedup l ↔ x ∈ l := by
  intro l
  induction l with
  | nil => simp [firstSeenDedup]
  | cons a t ih =>
    simp only [firstSeenDedup, List.mem_cons, List.mem_filter, bne_iff_ne, ih]
    constructor
    · rintro (h | ⟨h, _⟩)
      · exact Or.inl h
      · exact Or.inr h
    · rintro (h | h)
      · exact Or.inl h
      · by_cases hxa : x = a
        · exact Or.inl hxa
        · exact Or.inr ⟨h, hxa⟩

/-- The first-seen deduplication has no duplicates. -/
theorem nodup_firstSeenDedup : ∀ l : List String, (firstSeenDedup l).Nodup
  | [] => List.nodup_nil
  | a :: t => by
    rw [firstSeenDedup]
    refine List.nodup_cons.mpr ⟨?_, (nodup_firstSeenDedup t).filter _⟩
    intro hmem
    have := (List.mem_filter.mp hmem).2
    simp at this

/-- A duplicate-free list contained in `S` that misses some element of
`S` is strictly shorter than `S`'s distinct-element count. -/
theorem length_lt_fsd (l S : List String) (x : String) (hnd : l.Nodup)
    (hsub : ∀ y ∈ l, y ∈ S) (hx : x ∈ S) (hxl : x ∉ l) :
    l.length < (firstSeenDedup S).length := by
  have h1 : (x :: l).Nodup := List.nodup_cons.mpr ⟨hxl, hnd⟩
  have h2 : (x :: l).toFinset ⊆ (firstSeenDedup S).toFinset := by
    intro y hy
    rw [List.mem_toFinset] at hy ⊢
    rw [mem_firstSeenDedup]
    rcases List.mem_cons.mp hy with h | h
    · rw [h]; exact hx
    · exact hsub y h
  have h3 := Finset.card_le_card h2
  rw [List.toFinset_card_of_nodup h1,
    List.toFinset_card_of_nodup (nodup_firstSeenDedup S)] at h3
  simp only [List.length_cons] at h3
  omega

/-- One scan step keeps the seen-set duplicate-free and inside the set
of labels the entries can produce. -/
theorem scanStep_preserves (S : List String) (st : List String × Bool) (o : String)
    (hnd : st.1.Nodup) (hsub : ∀ y ∈ st.1, y ∈ S)
    (hlab : ∀ p, entryInfo o = some p → p.2 ∈ S) :
    ((scanStep st o).1).Nodup ∧ ∀ y ∈ (scanStep st o).1, y ∈ S := by
  rcases hoi : entryInfo o with _ | ⟨u, lab⟩
  · simp only [scanStep, hoi]
    exact ⟨hnd, hsub⟩
  · by_cases hm : lab ∈ st.1
    · simp only [scanStep, hoi, hm, if_true]
      exact ⟨hnd, hsub⟩
    · by_cases hl : MaxLabels ≤ st.1.length
      · simp only [scanStep, hoi, hm, if_false, hl, if_true]
        exact ⟨hnd, hsub⟩
      · simp only [scanStep, hoi, hm, if_false, hl]
        constructor
        · simp [List.nodup_append, hnd, hm]
        · intro y hy
          rcases List.mem_append.mp hy with hy2 | hy2
          · exact hsub y hy2
          · have : y = lab := by simpa using hy2
            rw [this]
            exact hlab (u, lab) hoi

/-- The scan returns SUCCESS whenever the caller origin itself occurs in
the origins list with a non-skipped entry, provided the whole list spans
at most MaxLabels distinct labels. -/
theorem scan_success_of_mem (S : List String)
    (hS : (firstSeenDedup S).length ≤ MaxLabels) :
    ∀ (origins : List String) (caller : String) (u : URL) (lab : String)
      (st : List String × Bool),
      entryInfo caller = some (u, lab) →
      caller ∈ origins →
      st.1.Nodup →
      (∀ y ∈ st.1, y ∈ S) →
      (∀ o ∈ origins, ∀ p, entryInfo o = some p → p.2 ∈ S) →
      scanOrigins u origins st = AuthenticatorStatus.StatusSuccess := by
  intro origins
  induction origins with
  | nil =>
    intro caller u lab st _ hmem
    exact absurd hmem (List.not_mem_nil caller)
  | cons o rest ih =>
    intro caller u lab st hci hmem hnd hsub hlabels
    by_cases hcond : (!entrySkipped st o && entryMatches u o) = true
    · simp [scanOrigins, hcond]
    · have ho : o ≠ caller := by
        intro he
        apply hcond
        have hm : entryMatches u o = true := by
          rw [he]
          simp [entryMatches, hci]
        have hlabS : lab ∈ S :=
          hlabels o (List.mem_cons_self o rest) (u, lab) (he ▸ hci)
        have hsk : entrySkipped st o = false := by
          rw [he]
          by_cases hml : lab ∈ st.1
          · simp [entrySkipped, hci, hml]
          · have hlen : st.1.length < MaxLabels :=
              lt_of_lt_of_le (length_lt_fsd st.1 S lab hnd hsub hlabS hml) hS
            simp [entrySkipped, hci, hml, Nat.not_le.mpr hlen]
        simp [hsk, hm]
      have hmem' : caller ∈ rest := by
        rcases List.mem_cons.mp hmem with h | h
        · exact absurd h.symm ho
        · exact h
      obtain ⟨hnd', hsub'⟩ := scanStep_preserves S st o hnd hsub
        (fun p hp => hlabels o (List.mem_cons_self o rest) p hp)
      have hrec := ih caller u lab (scanStep st o) hci hmem' hnd' hsub'
        (fun o2 ho2 p hp => hlabels o2 (List.mem_cons_of_mem o ho2) p hp)
      simpa [scanOrigins, hcond] using hrec

/-- The canonical origins document unmarshals to its list. -/
theorem unmarshal_originsDoc (l : List String) :
    unmarshalWebAuthn (originsDoc l) = Except.ok (some l) := by
  have hel : decodeStringElems (l.map Json.str) = Except.ok l := by
    induction l with
    | nil => rfl
    | cons s t ih => simp [decodeStringElems, ih, Except.map]
  have hko : keyIsOrigins "origins" = true := rfl
  simp [originsDoc, unmarshalWebAuthn, unmarshalFields, hko, decodeOriginsValue,
    hel, Except.map]

/-- A successful entry pipeline determines the URL parse. -/
theorem entryInfo_urlParse {o : String} {u : URL} {lab : String}
    (h : entryInfo o = some (u, lab)) : urlParse o = some u := by
  unfold entryInfo at h
  rcases hp : urlParse o with _ | v
  · rw [hp] at h
    exact absurd h (by simp)
  · rw [hp] at h
    by_cases hh : v.Host = ""
    · simp [hh] at h
    · rcases hg : getLabel v.Host with _ | l2
      · simp [hh, hg] at h
      · simp only [hh, if_false, hg] at h
        obtain ⟨h1, _⟩ := Prod.mk.injEq .. ▸ Option.some.inj h
        rw [h1]

/-- C4 (amended): for every origins document whose non-skipped entries
span at most MaxLabels distinct labels, and every caller origin that
appears verbatim as an entry and itself parses to a URL with a nonempty,
dotted host (so its entry is not skipped), validate returns SUCCESS —
regardless of the entry's position. -/
theorem validate_verbatim_caller_success (origins : List String) (caller : String)
    (u : URL) (lab : String)
    (h1 : entryInfo caller = some (u, lab))
    (h2 : caller ∈ origins)
    (h3 : distinctLabelCount origins ≤ MaxLabels) :
    ValidateWellKnownJSON caller (some (originsDoc origins))
      = AuthenticatorStatus.StatusSuccess := by
  have hu := entryInfo_urlParse h1
  have hscan := scan_success_of_mem (labelStream origins)
    (by simpa [distinctLabelCount] using h3) origins caller u lab ([], false)
    h1 h2 List.nodup_nil (by simp)
    (by
      intro o ho p hp
      simp only [labelStream, List.mem_filterMap]
      exact ⟨o, ho, by simp [hp]⟩)
  simp [ValidateWellKnownJSON, unmarshal_originsDoc, hu, hscan]

/-- C4 (witness): the caller as the second of two entries with two
distinct labels. -/
theorem validate_verbatim_caller_success_witness :
    ValidateWellKnownJSON "https://foo.com"
        (some (originsDoc ["https://a.com", "https://foo.com"]))
      = AuthenticatorStatus.StatusSuccess :=
  validate_verbatim_caller_success ["https://a.com", "https://foo.com"]
    "https://foo.com" ⟨"https", "foo.com"⟩ "foo." rfl (by decide) (by decide)

/-- Filtering away a label that is already in `found` changes nothing
once the not-in-`found` filter is applied. -/
theorem filter_filter_of_mem {lab : String} {found : List String}
    (hm : lab ∈ found) (l : List String) :
    (l.filter (fun x => x != lab)).filter (fun x => decide (x ∉ found))
      = l.filter (fun x => decide (x ∉ found)) := by
  rw [List.filter_filter]
  apply List.filter_congr
  intro a _
  by_cases haf : a ∈ found
  · simp [haf]
  · have hne : a ≠ lab := fun he => haf (he ▸ hm)
    simp [haf, hne]

/-- Excluding a fresh label and then the old `found` set is the same as
excluding the extended `found ++ [lab]` set. -/
theorem filter_notmem_append {lab : String} {found : List String}
    (hm : lab ∉ found) (l : List String) :
    (l.filter (fun x => x != lab)).filter (fun x => decide (x ∉ found))
      = l.filter (fun x => decide (x ∉ found ++ [lab])) := by
  rw [List.filter_filter]
  apply List.filter_congr
  intro a _
  by_cases hal : a = lab
  · subst hal
    simp
  · by_cases haf : a ∈ found
    · simp [hal, haf]
    · simp [hal, haf]

/-- The census loop appends, after the accumulator, the first-seen
deduplication of the label stream restricted to fresh labels. -/
theorem collectLabels_eq :
    ∀ (os found : List String),
      collectLabels os found
        = found ++ (firstSeenDedup (labelStream os)).filter (fun x => decide (x ∉ found))
  | [], found => by simp [collectLabels, labelStream, firstSeenDedup]
  | o :: rest, found => by
    rcases hoi : entryInfo o with _ | ⟨u, lab⟩
    · have hstream : labelStream (o :: rest) = labelStream rest := by
        simp [labelStream, hoi]
      rw [hstream]
      simp only [collectLabels, hoi]
      exact collectLabels_eq rest found
    · have hstream : labelStream (o :: rest) = lab :: labelStream rest := by
        simp [labelStream, hoi]
      rw [hstream]
      by_cases hm : lab ∈ found
      · simp only [collectLabels, hoi, hm, if_true]
        rw [collectLabels_eq rest found]
        congr 1
        rw [firstSeenDedup, List.filter_cons]
        simp only [hm, not_true_eq_false, decide_False, Bool.false_eq_true, if_false]
        rw [filter_filter_of_mem hm]
      · simp only [collectLabels, hoi, hm, if_false]
        rw [collectLabels_eq rest (found ++ [lab])]
        rw [firstSeenDedup, List.filter_cons]
        simp only [hm, not_false_eq_true, decide_True, if_true]
        rw [filter_notmem_append hm]
        simp

/-- C7: the census applies no MaxLabels gate: for every successfully
unmarshalled document it reports no error, its LabelsFound is exactly
the first-seen deduplication of the labels extracted from the (possibly
nil) origins slice — duplicate-free and containing every distinct
extracted label — its Count is that list's length, and ExceedsLimit
holds exactly when the Count exceeds MaxLabels. -/
theorem census_collects_all_labels (j : Json) (og : Option (List String))
    (h : unmarshalWebAuthn j = Except.ok og) :
    (CountLabelsFromFile (some j)).ErrorMessage = ""
    ∧ (CountLabelsFromFile (some j)).LabelsFound
        = firstSeenDedup (labelStream (og.getD []))
    ∧ (CountLabelsFromFile (some j)).LabelsFound.Nodup
    ∧ (∀ lab, lab ∈ (CountLabelsFromFile (some j)).LabelsFound
          ↔ lab ∈ labelStream (og.getD []))
    ∧ (CountLabelsFromFile (some j)).Count
        = (CountLabelsFromFile (some j)).LabelsFound.length
    ∧ ((CountLabelsFromFile (some j)).ExceedsLimit = true
          ↔ MaxLabels < (CountLabelsFromFile (some j)).Count) := by
  have hcl : collectLabels (og.getD []) [] = firstSeenDedup (labelStream (og.getD [])) := by
    rw [collectLabels_eq]
    simp
  have hc : CountLabelsFromFile (some j) =
      { Count := (firstSeenDedup (labelStream (og.getD []))).length
        ExceedsLimit := decide (MaxLabels < (firstSeenDedup (labelStream (og.getD []))).length)
        LabelsFound := firstSeenDedup (labelStream (og.getD []))
        ErrorMessage := "" } := by
    simp [CountLabelsFromFile, h, hcl]
  rw [hc]
  refine ⟨rfl, rfl, nodup_firstSeenDedup _, ?_, rfl, by simp⟩
  intro lab
  exact mem_firstSeenDedup

/-- C7 (witness): the census characterization at a concrete six-label
document. -/
theorem census_collects_all_labels_witness :
    (CountLabelsFromFile (some (originsDoc originsSixCensus))).LabelsFound
      = firstSeenDedup (labelStream originsSixCensus) :=
  (census_collects_all_labels (originsDoc originsSixCensus)
    (some originsSixCensus) (unmarshal_originsDoc originsSixCensus)).2.1
